import Mathlib

/-!
# Verification of the CAAB field normalizers and name-group parser

A shallow embedding of `caab/read.py`: the row predicates
(`is_current_taxon`), the field normalizers (`clean_scientific`,
`clean_scientific_assigned`, `clean_common`, `clean_rank`), the
name-group parser (`caab_name_expander`) and the remark synthesizer
(`caab_name_remarks`).  Python strings are Lean `String`s processed
through their `List Char` data; a Python value that may be `None` is an
`Option`; a Python call that may raise is a `PyResult`.  The two text
primitives imported from `processing.transform` are not part of the
sources and are modelled from the spec (see `strip_markup` and
`normalise_spaces` below).
-/

namespace Caab

/-! ## Character and list utilities -/

/-- Whitespace as Python `str.strip` / `\s` sees it (the four common
whitespace characters; the rarer `\f`, `\v` are not modelled). -/
def isWS (c : Char) : Bool :=
  c.toNat == 32 || c.toNat == 9 || c.toNat == 10 || c.toNat == 13

/-- Drop leading whitespace (Python `lstrip`). -/
def trimL (l : List Char) : List Char := l.dropWhile isWS

/-- Drop trailing whitespace (Python `rstrip`). -/
def trimR : List Char → List Char
  | [] => []
  | c :: rest =>
    match trimR rest with
    | [] => if isWS c then [] else [c]
    | d :: r => c :: d :: r

/-- Python `str.strip`. -/
def trimC (l : List Char) : List Char := trimL (trimR l)

/-- Python `str.strip` on a `String`. -/
def pyStrip (s : String) : String := String.mk (trimC s.data)

/-- `listStarts pat l` : `l` starts with the pattern `pat`
(Python `startswith`). -/
def listStarts : List Char → List Char → Bool
  | [], _ => true
  | _ :: _, [] => false
  | p :: ps, c :: cs => p == c && listStarts ps cs

/-- Python `s.startswith(pat)`. -/
def pyStartsWith (s pat : String) : Bool := listStarts pat.data s.data

/-- Python `s.endswith(pat)`. -/
def pyEndsWith (s pat : String) : Bool := listStarts pat.data.reverse s.data.reverse

/-- `pat in s` for lists (substring test). -/
def containsSub (pat : List Char) : List Char → Bool
  | [] => listStarts pat []
  | c :: cs => listStarts pat (c :: cs) || containsSub pat cs

/-- A whitespace character becomes a plain space, others are kept. -/
def normChar (c : Char) : Char := if isWS c then ' ' else c

/-- Collapse every whitespace run to a single `' '` (no trimming). -/
def squeeze : List Char → List Char
  | [] => []
  | c :: rest =>
    match rest with
    | [] => [normChar c]
    | d :: _ => if isWS c && isWS d then squeeze rest else normChar c :: squeeze rest

/-- Collapse internal whitespace runs to single spaces and trim. -/
def normSpacesL (l : List Char) : List Char := trimC (squeeze l)

/-- Python `str.lower` on one character (ASCII letters only, which is
all the source data holds). -/
def lowerChar (c : Char) : Char :=
  if 65 ≤ c.toNat && c.toNat ≤ 90 then Char.ofNat (c.toNat + 32) else c

/-- Split at every occurrence of a separator character, keeping empty
pieces — the semantics of both `re.split("[,&]", s)` (with
`sep = fun c => c == ',' || c == '&'`) and `s.split('|')`. -/
def splitOnSep (sep : Char → Bool) : List Char → List (List Char)
  | [] => [[]]
  | c :: rest =>
    if sep c then [] :: splitOnSep sep rest
    else
      match splitOnSep sep rest with
      | [] => [[c]]
      | a :: as => (c :: a) :: as

/-- Python `sepchar.join(pieces)`. -/
def joinWith (sep : Char) : List String → String
  | [] => ""
  | [x] => x
  | x :: y :: rest => x ++ String.mk [sep] ++ joinWith sep (y :: rest)

/-- Python `v.split(" ", 1)`: the part before the first `' '`, and the
part after it when a `' '` occurs (`none` when it does not). -/
def splitFirstSpace : List Char → List Char × Option (List Char)
  | [] => ([], none)
  | c :: rest =>
    if c == ' ' then ([], some rest)
    else
      match splitFirstSpace rest with
      | (a, b) => (c :: a, b)

/-! ## The modelled primitives from `processing.transform`

These two functions live in `processing/transform.py`, which is not
among the sources; they are modelled from the spec. -/

/-- Modelled from the spec: `strip_markup` of `processing.transform` is
not among the sources.  Per the spec it strips embedded markup and a
phrase is dropped when nothing remains ("strip markup, drop if nothing
remains"; "empty/whitespace-only input always normalizes to absent").
The markup the spec's own example exercises is the square-bracket
characters (`clean_common("a Red Fish|[Spotted] Cod|an Eel")` must
produce `Spotted Cod` from the half-bracketed second phrase), so markup
is modelled as the characters `[` and `]`; the result is trimmed and an
empty result is absent. -/
def strip_markup : Option String → Option String
  | none => none
  | some s =>
    let t := trimC (s.data.filter fun c => !(c == '[' || c == ']'))
    if t.isEmpty then none else some (String.mk t)

/-- Modelled from the spec: `normalise_spaces` of
`processing.transform` is not among the sources.  Per the spec it
collapses internal whitespace runs to single spaces and trims. -/
def normalise_spaces (s : String) : String := String.mk (normSpacesL s.data)

/-! ## Field normalizers (from `caab/read.py`) -/

/-- `clean_scientific` of `caab/read.py`: strip markup; on `None`
return `None`; if the result starts with `'"'` apply
`s.replace('"', ' ')` (every quote becomes a space); normalise
spaces. -/
def clean_scientific (s : Option String) : Option String :=
  match strip_markup s with
  | none => none
  | some t =>
    let t := if pyStartsWith t "\"" then String.mk (t.data.map fun c => if c == '"' then ' ' else c) else t
    some (normalise_spaces t)

/-- `clean_scientific_assigned` of `caab/read.py`: as
`clean_scientific`, and `None` when the result contains
`"unassigned"`. -/
def clean_scientific_assigned (s : Option String) : Option String :=
  match clean_scientific s with
  | none => none
  | some t => if containsSub "unassigned".data t.data then none else some t

/-- The body of `clean_common`'s `for` loop over the pipe-separated
phrases: strip markup (`continue` on `None`), unwrap a fully bracketed
phrase and strip it, drop a leading `"a "` then a leading `"an "`,
normalise spaces, append. -/
def clean_common_loop : List String → List String
  | [] => []
  | ss :: rest =>
    match strip_markup (some ss) with
    | none => clean_common_loop rest
    | some t =>
      let t := if pyStartsWith t "[" && pyEndsWith t "]" then pyStrip (String.mk (t.data.drop 1).dropLast) else t
      let t := if pyStartsWith t "a " then String.mk (t.data.drop 2) else t
      let t := if pyStartsWith t "an " then String.mk (t.data.drop 3) else t
      normalise_spaces t :: clean_common_loop rest

/-- `clean_common` of `caab/read.py`: `None` on `None` or empty input,
else process each `'|'`-separated phrase and rejoin with `'|'`. -/
def clean_common (s : Option String) : Option String :=
  match s with
  | none => none
  | some s =>
    if s.data.isEmpty then none
    else some (joinWith '|' (clean_common_loop ((splitOnSep (fun c => c == '|') s.data).map String.mk)))

/-- `clean_rank` of `caab/read.py`: `None` on `None`; strip and
lowercase; `None` when empty. -/
def clean_rank (s : Option String) : Option String :=
  match s with
  | none => none
  | some s =>
    let t := (trimC s.data).map lowerChar
    if t.isEmpty then none else some (String.mk t)

/-! ## Row predicate and remark synthesizer (from `caab/read.py`) -/

/-- The fields of a CAAB source row that `is_current_taxon` reads.
Per the spec's record contract, an absent field reads as an absent
value; the non-current flag's Python truthiness is a `Bool`
("false/unset" is `false`). -/
structure CaabRecord where
  SPCODE : String
  NON_CURRENT_FLAG : Bool
  SCIENTIFIC_NAME : Option String
  DISPLAY_NAME : Option String

/-- `is_current_taxon` of `caab/read.py`. -/
def is_current_taxon (r : CaabRecord) : Bool :=
  !r.NON_CURRENT_FLAG && !(pyStartsWith r.SPCODE "99") && !(pyStartsWith r.SPCODE "8")
    && (r.SCIENTIFIC_NAME.isSome || r.DISPLAY_NAME.isSome)

/-- The fields of a resolved output row that `caab_name_remarks`
reads. -/
structure RemarkRecord where
  standard : String
  scientificName : String
  originalScientificName : String
  introduced : String

/-- `caab_name_remarks` of `caab/read.py`. -/
def caab_name_remarks (r : RemarkRecord) : String :=
  let remarks := "Standard name from " ++ r.standard ++ "."
  let remarks :=
    if r.scientificName ≠ r.originalScientificName then
      let remarks := remarks ++ " Derived from original scientific name group " ++ r.originalScientificName
      if !(pyEndsWith remarks ".") then remarks ++ "." else remarks
    else remarks
  if r.introduced = "I" then remarks ++ " Introduced." else remarks

/-! ## The name-group parser (from `caab/read.py`)

The patterns `_NAME_SPLIT`, `_NAME_ABBREV`, `_SP_MARKER`,
`_EXCEPT_FORM`, `_TRIBES` and `_IMPORTED` are embedded as functions
with the exact semantics of `re.fullmatch` on those regexes: a greedy
leading `(.+)` makes `group(1)` the longest proper prefix whose
remainder matches the rest of the pattern, so each `...G1` function
searches for the rightmost viable split point. -/

/-- A Python call that returns normally, raises `ValueError` with a
message, or raises `IndexError`. -/
inductive PyResult (α : Type) where
  | ok : α → PyResult α
  | valueError : String → PyResult α
  | indexError : PyResult α
deriving DecidableEq, Repr

/-- `_NAME_ABBREV = re.compile("[A-Z]\\.")`, used with `fullmatch`:
exactly one capital letter followed by a period. -/
def isNameAbbrev : List Char → Bool
  | [c, d] => (65 ≤ c.toNat && c.toNat ≤ 90) && d == '.'
  | _ => false

/-- `group(1)` of a greedy `re.fullmatch("(.+)<tail>", l)`: the longest
nonempty proper prefix whose remainder satisfies `tail`.  The rightmost
split wins because `(.+)` is greedy. -/
def greedyG1 (tail : List Char → Bool) : List Char → Option (List Char)
  | [] => none
  | c :: rest =>
    match greedyG1 tail rest with
    | some a => some (c :: a)
    | none => if tail rest then some [c] else none

/-- The remainder of `_EXCEPT_FORM = "(.+)\\s+except\\s+(.+)"` after
`group(1)`: one or more whitespace, `except`, one or more whitespace,
one or more further characters.  After the maximal whitespace run of
length `k` past `except`, `m` characters remain; backtracking succeeds
iff `k ≥ 1` and `k + m ≥ 2`. -/
def exceptTail (r : List Char) : Bool :=
  match r with
  | [] => false
  | c :: _ =>
    isWS c &&
      (let r1 := r.dropWhile isWS
       listStarts "except".data r1 &&
         (let r2 := r1.drop 6
          match r2 with
          | [] => false
          | d :: _ =>
            isWS d &&
              (let k := (r2.takeWhile isWS).length
               let m := (r2.dropWhile isWS).length
               decide (2 ≤ k + m))))

/-- The remainder of `_SP_MARKER = "(.+)\\s+spp?\\.?"` after
`group(1)`: whitespace then exactly `sp`, `spp`, `sp.` or `spp.`. -/
def spTail (r : List Char) : Bool :=
  match r with
  | [] => false
  | c :: _ =>
    isWS c &&
      (let r1 := r.dropWhile isWS
       r1 == "sp".data || r1 == "spp".data || r1 == "sp.".data || r1 == "spp.".data)

/-- The remainder of `_IMPORTED = "(.+)\\s+\\(?[Ii]mported .+\\)?"`
after `group(1)`: whitespace, an optional `(`, `Imported ` or
`imported `, and at least one further character (the trailing `\\)?`
can always match the empty string after the greedy `.+`). -/
def importedTail (r : List Char) : Bool :=
  match r with
  | [] => false
  | c :: _ =>
    isWS c &&
      (let r1 := r.dropWhile isWS
       let r2 := if listStarts ['('] r1 then r1.drop 1 else r1
       (listStarts "Imported ".data r2 || listStarts "imported ".data r2) &&
         decide (10 ≤ r2.length))

/-- The remainder of `_TRIBES = "(.+)\\s+\\(\\s*[Tt]ribes\\s.*\\)"`
after `group(1)`: whitespace, `(`, optional whitespace, `Tribes` or
`tribes`, one whitespace character, anything, and a final `)`. -/
def tribesTail (r : List Char) : Bool :=
  match r with
  | [] => false
  | c :: _ =>
    isWS c &&
      (let r1 := r.dropWhile isWS
       listStarts ['('] r1 &&
         (let r2 := (r1.drop 1).dropWhile isWS
          (listStarts "Tribes".data r2 || listStarts "tribes".data r2) &&
            (let r3 := r2.drop 6
             match r3 with
             | [] => false
             | d :: rest => isWS d && listStarts [')'] rest.reverse)))

/-- `value.strip()` followed by the `_EXCEPT_FORM` and `_SP_MARKER`
reductions the loop body applies to one raw token. -/
def reduceToken (t : String) : String :=
  let v := trimC t.data
  let v := match greedyG1 exceptTail v with | some a => a | none => v
  let v := match greedyG1 spTail v with | some a => a | none => v
  String.mk v

/-- The genus-abbreviation map: Python's `dict` keyed by one character.
Entries are only ever inserted for keys not present, so keys stay
unique and lookup order is immaterial. -/
abbrev GenusMap := List (Char × String)

/-- `genus.get(initial)` / `initial in genus`. -/
def gLookup (i : Char) : GenusMap → Option String
  | [] => none
  | (c, w) :: rest => if c == i then some w else gLookup i rest

/-- One iteration of `caab_name_expander`'s `for` loop on the raw token
`t`: reduce the token, split at the first space, take the initial
(`IndexError` on an empty first word), then either resolve an
abbreviation through the map (`ValueError` when absent) or record the
first word for its initial when the initial is not yet mapped. -/
def expandToken (value : String) (genus : GenusMap) (t : String) : PyResult (GenusMap × String) :=
  let v := reduceToken t
  let parts := splitFirstSpace v.data
  match parts.1 with
  | [] => .indexError
  | c :: _ =>
    if isNameAbbrev parts.1 then
      match gLookup c genus with
      | none => .valueError ("Can" ++ "\x27" ++ "t find abbreviated form for " ++ v ++ " in " ++ value)
      | some g =>
        .ok (genus, match parts.2 with
          | some r => g ++ " " ++ String.mk r
          | none => g)
    else
      .ok ((match gLookup c genus with
            | some _ => genus
            | none => (c, String.mk parts.1) :: genus), v)

/-- The `for` loop of `caab_name_expander`, threading the genus map and
the accumulated result list and propagating a raised error. -/
def expandLoop (value : String) (genus : GenusMap) (acc : List String) :
    List String → PyResult (GenusMap × List String)
  | [] => .ok (genus, acc)
  | t :: rest =>
    match expandToken value genus t with
    | .indexError => .indexError
    | .valueError m => .valueError m
    | .ok (genus1, v) => expandLoop value genus1 (acc ++ [v]) rest

/-- The parsed value: the stripped input after the `_IMPORTED` and
`_TRIBES` annotation reductions. -/
def expanderValue (s : String) : String :=
  let v := trimC s.data
  let v := match greedyG1 importedTail v with | some a => a | none => v
  let v := match greedyG1 tribesTail v with | some a => a | none => v
  String.mk v

/-- The raw tokens: the parsed value split on `_NAME_SPLIT = "[,&]"`. -/
def expanderTokens (s : String) : List String :=
  (splitOnSep (fun c => c == ',' || c == '&') (expanderValue s).data).map String.mk

/-- `caab_name_expander` of `caab/read.py`: `None` in, or nothing after
stripping, gives `None`; otherwise strip the annotations, split into
tokens and run the loop with a genus map created fresh for this call
(the dict literal in the function body). -/
def caab_name_expander (s : Option String) : PyResult (Option (List String)) :=
  match s with
  | none => .ok none
  | some raw =>
    if (trimC raw.data).isEmpty then .ok none
    else
      match expandLoop (expanderValue raw) [] [] (expanderTokens raw) with
      | .ok (_, acc) => .ok (some acc)
      | .valueError m => .valueError m
      | .indexError => .indexError

/-! ## Specification-side views of the parser -/

/-- The genus entry a reduced token offers: its first word keyed by its
initial, unless the token is empty or itself an abbreviation. -/
def providerOf (t : String) : Option (Char × String) :=
  match (splitFirstSpace (reduceToken t).data).1 with
  | [] => none
  | c :: cs => if isNameAbbrev (c :: cs) then none else some (c, String.mk (c :: cs))

/-- The genus word of the EARLIEST token of `ts` whose reduced form is
a full (non-abbreviated) name with initial `i`. -/
def firstProvider (ts : List String) (i : Char) : Option String :=
  gLookup i (ts.filterMap providerOf)

/-- The genus word of the LATEST token of `ts` whose reduced form is a
full (non-abbreviated) name with initial `i` — the "most recently
stated full genus" reading of the claim. -/
def latestProvider (ts : List String) (i : Char) : Option String :=
  gLookup i (ts.filterMap providerOf).reverse

/-- A sequence of calls to `caab_name_expander`, in order, as the
surrounding engine performs them.  Each call evaluates the function on
its own argument alone; the genus map is created inside the call
(`expandLoop ... [] ...` in `caab_name_expander`), so there is no state
to thread between the calls. -/
def runSequence : List (Option String) → List (PyResult (Option (List String)))
  | [] => []
  | s :: rest => caab_name_expander s :: runSequence rest

/-! ## Lemmas: prefixes, trimming and whitespace normalisation -/

theorem listStarts_iff (p : List Char) : ∀ l, listStarts p l = true ↔ ∃ r, l = p ++ r := by
  induction p with
  | nil =>
    intro l
    simp only [listStarts, List.nil_append, true_iff]
    exact ⟨l, rfl⟩
  | cons a ps ih =>
    intro l
    cases l with
    | nil =>
      constructor
      · intro h; simp [listStarts] at h
      · rintro ⟨r, h⟩; simp at h
    | cons c cs =>
      simp only [listStarts, Bool.and_eq_true, beq_iff_eq, ih, List.cons_append]
      constructor
      · rintro ⟨rfl, r, rfl⟩; exact ⟨r, rfl⟩
      · rintro ⟨r, h⟩
        injection h with h1 h2
        exact ⟨h1.symm, r, h2⟩

/-- The first element, if any, is not whitespace. -/
def headNotWS (l : List Char) : Bool :=
  match l.head? with
  | none => true
  | some c => !isWS c

/-- The last element, if any, is not whitespace. -/
def lastNotWS (l : List Char) : Bool :=
  match l.getLast? with
  | none => true
  | some c => !isWS c

theorem mem_trimL {c : Char} : ∀ {l : List Char}, c ∈ trimL l → c ∈ l := by
  intro l
  induction l with
  | nil => simp [trimL]
  | cons a rest ih =>
    simp only [trimL, List.dropWhile_cons]
    intro h
    by_cases hw : isWS a = true
    · simp only [hw, if_true] at h
      exact List.mem_cons_of_mem a (ih h)
    · simp only [Bool.not_eq_true] at hw
      simp only [hw, Bool.false_eq_true, if_false] at h
      exact h

theorem headNotWS_trimL : ∀ l : List Char, headNotWS (trimL l) = true := by
  intro l
  induction l with
  | nil => rfl
  | cons a rest ih =>
    simp only [trimL, List.dropWhile_cons]
    by_cases hw : isWS a = true
    · simpa [hw] using ih
    · simp only [Bool.not_eq_true] at hw
      simp [hw, headNotWS]

theorem trimL_eq_self {l : List Char} (h : headNotWS l = true) : trimL l = l := by
  cases l with
  | nil => rfl
  | cons a rest =>
    simp only [headNotWS, List.head?_cons, Bool.not_eq_true'] at h
    simp [trimL, List.dropWhile_cons, h]

theorem trimL_all_ws : ∀ {l : List Char}, (∀ c ∈ l, isWS c = true) → trimL l = [] := by
  intro l h
  induction l with
  | nil => rfl
  | cons a rest ih =>
    have ha := h a (List.mem_cons_self a rest)
    simp only [trimL, List.dropWhile_cons, ha, if_true]
    exact ih fun c hc => h c (List.mem_cons_of_mem a hc)

theorem getLast?_trimL {l : List Char} (h : trimL l ≠ []) : (trimL l).getLast? = l.getLast? := by
  conv_rhs => rw [← List.takeWhile_append_dropWhile isWS l]
  rw [List.getLast?_append]
  cases hd : (l.dropWhile isWS).getLast? with
  | none => exact absurd (List.getLast?_eq_none_iff.mp hd) h
  | some c => simp [trimL, hd, Option.or]

theorem lastNotWS_trimL {l : List Char} (h : lastNotWS l = true) : lastNotWS (trimL l) = true := by
  by_cases hn : trimL l = []
  · simp [hn, lastNotWS]
  · unfold lastNotWS
    rw [getLast?_trimL hn]
    exact h

theorem mem_trimR {c : Char} : ∀ {l : List Char}, c ∈ trimR l → c ∈ l := by
  intro l
  induction l with
  | nil => simp [trimR]
  | cons a rest ih =>
    simp only [trimR]
    cases htr : trimR rest with
    | nil =>
      by_cases hw : isWS a = true
      · simp [hw]
      · simp only [Bool.not_eq_true] at hw
        simp only [hw, Bool.false_eq_true, if_false, List.mem_singleton]
        rintro rfl; exact List.mem_cons_self _ _
    | cons d r =>
      intro h
      rcases List.mem_cons.mp h with rfl | h
      · exact List.mem_cons_self _ _
      · exact List.mem_cons_of_mem _ (ih (htr ▸ h))

theorem trimR_head : ∀ {l : List Char} {d : Char} {r : List Char}, trimR l = d :: r → ∃ t, l = d :: t := by
  intro l d r h
  cases l with
  | nil => simp [trimR] at h
  | cons a rest =>
    simp only [trimR] at h
    cases htr : trimR rest with
    | nil =>
      rw [htr] at h
      by_cases hw : isWS a = true
      · simp [hw] at h
      · simp only [Bool.not_eq_true] at hw
        simp only [hw, Bool.false_eq_true, if_false] at h
        injection h with h1 _
        exact ⟨rest, by rw [h1]⟩
    | cons e s =>
      rw [htr] at h
      injection h with h1 _
      exact ⟨rest, by rw [h1]⟩

theorem lastNotWS_trimR : ∀ l : List Char, lastNotWS (trimR l) = true := by
  intro l
  induction l with
  | nil => rfl
  | cons a rest ih =>
    simp only [trimR]
    cases htr : trimR rest with
    | nil =>
      by_cases hw : isWS a = true
      · simp [hw, lastNotWS]
      · simp only [Bool.not_eq_true] at hw
        simp [hw, lastNotWS, hw]
    | cons d r =>
      rw [htr] at ih
      cases r with
      | nil => simpa [lastNotWS] using ih
      | cons e s => simpa [lastNotWS, List.getLast?_cons_cons] using ih

theorem trimR_eq_self : ∀ {l : List Char}, lastNotWS l = true → trimR l = l := by
  intro l
  induction l with
  | nil => intro _; rfl
  | cons a rest ih =>
    intro h
    cases rest with
    | nil =>
      simp only [lastNotWS, List.getLast?_singleton, Bool.not_eq_true'] at h
      simp [trimR, h]
    | cons b s =>
      have hrest : lastNotWS (b :: s) = true := by
        simpa [lastNotWS, List.getLast?_cons_cons] using h
      have hdef : trimR (a :: b :: s) =
          match trimR (b :: s) with
          | [] => if isWS a = true then [] else [a]
          | d :: r => a :: d :: r := rfl
      rw [hdef, ih hrest]

theorem trimR_all_ws : ∀ {l : List Char}, (∀ c ∈ l, isWS c = true) → trimR l = [] := by
  intro l h
  induction l with
  | nil => rfl
  | cons a rest ih =>
    have ha := h a (List.mem_cons_self a rest)
    have := ih fun c hc => h c (List.mem_cons_of_mem a hc)
    simp [trimR, this, ha]

theorem mem_trimC {c : Char} {l : List Char} (h : c ∈ trimC l) : c ∈ l :=
  mem_trimR (mem_trimL h)

theorem headNotWS_trimC (l : List Char) : headNotWS (trimC l) = true :=
  headNotWS_trimL (trimR l)

theorem lastNotWS_trimC (l : List Char) : lastNotWS (trimC l) = true :=
  lastNotWS_trimL (lastNotWS_trimR l)

theorem trimC_eq_self {l : List Char} (hh : headNotWS l = true) (hl : lastNotWS l = true) :
    trimC l = l := by
  unfold trimC
  rw [trimR_eq_self hl, trimL_eq_self hh]

theorem trimC_idem (l : List Char) : trimC (trimC l) = trimC l :=
  trimC_eq_self (headNotWS_trimC l) (lastNotWS_trimC l)

theorem trimC_all_ws {l : List Char} (h : ∀ c ∈ l, isWS c = true) : trimC l = [] := by
  unfold trimC
  rw [trimR_all_ws h]
  rfl

/-- No two adjacent whitespace characters. -/
def noAdjWS : List Char → Bool
  | [] => true
  | [_] => true
  | c :: d :: r => !(isWS c && isWS d) && noAdjWS (d :: r)

/-- Every whitespace character is a plain `' '`. -/
def wsSpaces (l : List Char) : Bool := l.all fun c => !isWS c || c == ' '

theorem noAdjWS_tail {c : Char} {l : List Char} (h : noAdjWS (c :: l) = true) :
    noAdjWS l = true := by
  cases l with
  | nil => rfl
  | cons d r => exact (Bool.and_eq_true .. ▸ h).2

theorem squeeze_cons_cons (a b : Char) (r : List Char) :
    squeeze (a :: b :: r) =
      if isWS a && isWS b then squeeze (b :: r) else normChar a :: squeeze (b :: r) := rfl

theorem mem_squeeze {c : Char} : ∀ {l : List Char}, c ∈ squeeze l → c ∈ l ∨ c = ' ' := by
  intro l
  induction l with
  | nil => simp [squeeze]
  | cons a rest ih =>
    cases rest with
    | nil =>
      show c ∈ [normChar a] → _
      simp only [List.mem_singleton, normChar]
      intro h
      by_cases hw : isWS a = true
      · right; simpa [hw] using h
      · simp only [Bool.not_eq_true] at hw
        simp only [hw, Bool.false_eq_true, if_false] at h
        exact Or.inl (by simp [h])
    | cons b r =>
      rw [squeeze_cons_cons]
      by_cases hww : (isWS a && isWS b) = true
      · rw [if_pos hww]
        intro h
        rcases ih h with h | h
        · exact Or.inl (List.mem_cons_of_mem a h)
        · exact Or.inr h
      · rw [if_neg hww]
        intro h
        rcases List.mem_cons.mp h with h | h
        · by_cases hw : isWS a = true
          · exact Or.inr (by simpa [normChar, hw] using h)
          · simp only [Bool.not_eq_true] at hw
            simp only [normChar, hw, Bool.false_eq_true, if_false] at h
            exact Or.inl (by simp [h])
        · rcases ih h with h | h
          · exact Or.inl (List.mem_cons_of_mem a h)
          · exact Or.inr h

theorem squeeze_cons_not_ws {d : Char} (r : List Char) (h : isWS d = false) :
    ∃ t, squeeze (d :: r) = d :: t := by
  cases r with
  | nil => exact ⟨[], by simp [squeeze, normChar, h]⟩
  | cons e s =>
    refine ⟨squeeze (e :: s), ?_⟩
    rw [squeeze_cons_cons, if_neg (by simp [h])]
    simp [normChar, h]

theorem noAdjWS_squeeze : ∀ l : List Char, noAdjWS (squeeze l) = true := by
  intro l
  induction l with
  | nil => rfl
  | cons a rest ih =>
    cases rest with
    | nil => rfl
    | cons b r =>
      rw [squeeze_cons_cons]
      by_cases hww : (isWS a && isWS b) = true
      · rw [if_pos hww]; exact ih
      · rw [if_neg hww]
        by_cases hw : isWS a = true
        · have hb : isWS b = false := by
            cases hbb : isWS b
            · rfl
            · exact absurd (by rw [hw, hbb]; rfl) hww
          obtain ⟨t, ht⟩ := squeeze_cons_not_ws r hb
          rw [ht]
          have h2 : noAdjWS (b :: t) = true := ht ▸ ih
          show (!(isWS (normChar a) && isWS b) && noAdjWS (b :: t)) = true
          simp [hb, h2]
        · simp only [Bool.not_eq_true] at hw
          have hna : normChar a = a := by simp [normChar, hw]
          rw [hna]
          cases hs : squeeze (b :: r) with
          | nil => rfl
          | cons e t =>
            have h2 : noAdjWS (e :: t) = true := hs ▸ ih
            show (!(isWS a && isWS e) && noAdjWS (e :: t)) = true
            simp [hw, h2]

theorem wsSpaces_squeeze : ∀ l : List Char, wsSpaces (squeeze l) = true := by
  intro l
  induction l with
  | nil => rfl
  | cons a rest ih =>
    have hnc : (!isWS (normChar a) || normChar a == ' ') = true := by
      unfold normChar
      by_cases hw : isWS a = true
      · simp [hw]
      · simp only [Bool.not_eq_true] at hw
        simp [hw]
    cases rest with
    | nil =>
      show wsSpaces [normChar a] = true
      simpa [wsSpaces] using hnc
    | cons b r =>
      rw [squeeze_cons_cons]
      by_cases hww : (isWS a && isWS b) = true
      · rw [if_pos hww]; exact ih
      · rw [if_neg hww]
        show wsSpaces (normChar a :: squeeze (b :: r)) = true
        simp only [wsSpaces, List.all_cons, Bool.and_eq_true]
        exact ⟨hnc, ih⟩

theorem all_of_mem_imp {p : Char → Bool} {l : List Char} (h : ∀ c ∈ l, p c = true) :
    l.all p = true :=
  List.all_eq_true.mpr h

theorem wsSpaces_of_sub {l m : List Char} (hsub : ∀ c, c ∈ l → c ∈ m)
    (h : wsSpaces m = true) : wsSpaces l = true :=
  all_of_mem_imp fun c hc => List.all_eq_true.mp h c (hsub c hc)

theorem squeeze_eq_self : ∀ {l : List Char}, noAdjWS l = true → wsSpaces l = true →
    squeeze l = l := by
  intro l
  induction l with
  | nil => intro _ _; rfl
  | cons a rest ih =>
    intro h1 h2
    have ha : normChar a = a := by
      unfold normChar
      by_cases hw : isWS a = true
      · have ha2 := List.all_eq_true.mp h2 a (List.mem_cons_self a rest)
        simp only [hw, Bool.not_true, Bool.false_or, beq_iff_eq] at ha2
        rw [if_pos hw, ha2]
      · simp only [Bool.not_eq_true] at hw
        simp [hw]
    cases rest with
    | nil =>
      show [normChar a] = [a]
      rw [ha]
    | cons b r =>
      have hh : (!(isWS a && isWS b) && noAdjWS (b :: r)) = true := h1
      have hww : ¬((isWS a && isWS b) = true) := by
        have hx := (Bool.and_eq_true .. ▸ hh).1
        simp only [Bool.not_eq_true'] at hx
        simp [hx]
      have htail : squeeze (b :: r) = b :: r :=
        ih (noAdjWS_tail h1)
          (wsSpaces_of_sub (fun c hc => List.mem_cons_of_mem a hc) h2)
      rw [squeeze_cons_cons, if_neg hww, ha, htail]

theorem noAdjWS_trimL : ∀ {l : List Char}, noAdjWS l = true → noAdjWS (trimL l) = true := by
  intro l
  induction l with
  | nil => intro _; rfl
  | cons a rest ih =>
    intro h
    simp only [trimL, List.dropWhile_cons]
    by_cases hw : isWS a = true
    · simp only [hw, if_true]
      exact ih (noAdjWS_tail h)
    · simp only [Bool.not_eq_true] at hw
      simp only [hw, Bool.false_eq_true, if_false]
      exact h

theorem noAdjWS_trimR : ∀ {l : List Char}, noAdjWS l = true → noAdjWS (trimR l) = true := by
  intro l
  induction l with
  | nil => intro _; rfl
  | cons a rest ih =>
    intro h
    have hdef : trimR (a :: rest) =
        match trimR rest with
        | [] => if isWS a = true then [] else [a]
        | d :: r => a :: d :: r := rfl
    rw [hdef]
    cases htr : trimR rest with
    | nil =>
      by_cases hw : isWS a = true
      · simp only [hw, if_true]
        rfl
      · simp only [Bool.not_eq_true] at hw
        simp only [hw, Bool.false_eq_true, if_false]
        rfl
    | cons d r =>
      obtain ⟨t, ht⟩ := trimR_head htr
      have hd : noAdjWS (d :: r) = true := htr ▸ ih (noAdjWS_tail h)
      have hadj : (isWS a && isWS d) = false := by
        rw [ht] at h
        have hh : (!(isWS a && isWS d) && noAdjWS (d :: t)) = true := h
        cases hab : (isWS a && isWS d)
        · rfl
        · rw [hab] at hh
          simp at hh
      show (!(isWS a && isWS d) && noAdjWS (d :: r)) = true
      simp [hadj, hd]

theorem normSpacesL_fix (l : List Char) : normSpacesL (normSpacesL l) = normSpacesL l := by
  unfold normSpacesL
  have hws : wsSpaces (trimC (squeeze l)) = true :=
    wsSpaces_of_sub (fun c hc => mem_trimC hc) (wsSpaces_squeeze l)
  have hadj : noAdjWS (trimC (squeeze l)) = true :=
    noAdjWS_trimL (noAdjWS_trimR (noAdjWS_squeeze l))
  rw [squeeze_eq_self hadj hws, trimC_idem]

theorem mem_normSpacesL {c : Char} {l : List Char} (h : c ∈ normSpacesL l) :
    c ∈ l ∨ c = ' ' :=
  mem_squeeze (mem_trimC h)

theorem normSpacesL_all_ws {l : List Char} (h : ∀ c ∈ l, isWS c = true) :
    normSpacesL l = [] := by
  unfold normSpacesL
  refine trimC_all_ws fun c hc => ?_
  rcases mem_squeeze hc with hm | rfl
  · exact h c hm
  · rfl

/-! ## Lemmas: lowercasing -/

theorem lowerChar_toNat {c : Char} (h : (65 ≤ c.toNat && c.toNat ≤ 90) = true) :
    (lowerChar c).toNat = c.toNat + 32 := by
  have h2 := Bool.and_eq_true .. ▸ h
  have h65 : 65 ≤ c.toNat := by exact_mod_cast Nat.le_of_ble_eq_true (by simpa using h2.1)
  have h90 : c.toNat ≤ 90 := by exact_mod_cast Nat.le_of_ble_eq_true (by simpa using h2.2)
  have hval : (c.toNat + 32).isValidChar := Or.inl (by omega)
  unfold lowerChar
  rw [if_pos h, Char.ofNat, dif_pos hval]
  rfl

theorem isWS_lowerChar (c : Char) : isWS (lowerChar c) = isWS c := by
  by_cases h : (65 ≤ c.toNat && c.toNat ≤ 90) = true
  · have ht := lowerChar_toNat h
    have h2 := Bool.and_eq_true .. ▸ h
    have h65 : 65 ≤ c.toNat := Nat.le_of_ble_eq_true (by simpa using h2.1)
    have h90 : c.toNat ≤ 90 := Nat.le_of_ble_eq_true (by simpa using h2.2)
    have hl : isWS (lowerChar c) = false := by
      simp only [isWS, ht, Bool.or_eq_false_iff, beq_eq_false_iff_ne]
      omega
    have hr : isWS c = false := by
      simp only [isWS, Bool.or_eq_false_iff, beq_eq_false_iff_ne]
      omega
    rw [hl, hr]
  · unfold lowerChar
    rw [if_neg h]

theorem lowerChar_idem (c : Char) : lowerChar (lowerChar c) = lowerChar c := by
  by_cases h : (65 ≤ c.toNat && c.toNat ≤ 90) = true
  · have ht := lowerChar_toNat h
    have h2 := Bool.and_eq_true .. ▸ h
    have h65 : 65 ≤ c.toNat := Nat.le_of_ble_eq_true (by simpa using h2.1)
    have h90 : c.toNat ≤ 90 := Nat.le_of_ble_eq_true (by simpa using h2.2)
    have hcond : ¬((65 ≤ (lowerChar c).toNat && (lowerChar c).toNat ≤ 90) = true) := by
      rw [ht]
      simp only [Bool.and_eq_true, decide_eq_true_eq]
      omega
    show (if (65 ≤ (lowerChar c).toNat && (lowerChar c).toNat ≤ 90) = true
          then Char.ofNat ((lowerChar c).toNat + 32) else lowerChar c) = lowerChar c
    rw [if_neg hcond]
  · have hc : lowerChar c = c := by
      unfold lowerChar
      rw [if_neg h]
    rw [hc, hc]

/-! ## Lemmas: the field normalizers -/

theorem mk_eq_empty_iff {l : List Char} : String.mk l = "" ↔ l = [] :=
  ⟨fun h => congrArg String.data h, fun h => by rw [h]⟩

theorem beq_false_of_isWS {c d : Char} (hc : isWS c = true) (hd : isWS d = false) :
    (c == d) = false := by
  cases hb : (c == d)
  · rfl
  · rw [beq_iff_eq] at hb
    subst hb
    rw [hc] at hd
    cases hd

theorem strip_markup_eq (s : String) : strip_markup (some s) =
    (if (trimC (s.data.filter fun c => !(c == '[' || c == ']'))).isEmpty then none
     else some (String.mk (trimC (s.data.filter fun c => !(c == '[' || c == ']'))))) := rfl

theorem strip_markup_some {s w : String} (h : strip_markup (some s) = some w) :
    w.data = trimC (s.data.filter fun c => !(c == '[' || c == ']')) ∧ w.data ≠ [] := by
  rw [strip_markup_eq] at h
  by_cases he : (trimC (s.data.filter fun c => !(c == '[' || c == ']'))).isEmpty = true
  · rw [if_pos he] at h
    cases h
  · rw [if_neg he] at h
    injection h with h
    subst h
    refine ⟨rfl, fun hc => he ?_⟩
    have hc2 : trimC (s.data.filter fun c => !(c == '[' || c == ']')) = [] := hc
    rw [hc2]
    rfl

theorem strip_markup_ws {s : String} (hws : ∀ c ∈ s.data, isWS c = true) :
    strip_markup (some s) = none := by
  rw [strip_markup_eq]
  have hfil : s.data.filter (fun c => !(c == '[' || c == ']')) = s.data :=
    List.filter_eq_self.mpr fun c hc => by
      have h1 := beq_false_of_isWS (hws c hc) (show isWS '[' = false by decide)
      have h2 := beq_false_of_isWS (hws c hc) (show isWS ']' = false by decide)
      rw [h1, h2]
      rfl
  rw [hfil, trimC_all_ws hws]
  rfl

theorem splitOnSep_no_sep {sep : Char → Bool} :
    ∀ {l : List Char}, (∀ c ∈ l, sep c = false) → splitOnSep sep l = [l] := by
  intro l
  induction l with
  | nil => intro _; rfl
  | cons c rest ih =>
    intro h
    have hc := h c (List.mem_cons_self c rest)
    have hr := ih fun d hd => h d (List.mem_cons_of_mem c hd)
    simp only [splitOnSep, hc, Bool.false_eq_true, if_false, hr]

theorem clean_common_ws {s : String} (hne : s.data ≠ []) (hws : ∀ c ∈ s.data, isWS c = true) :
    clean_common (some s) = some "" := by
  have hsep : ∀ c ∈ s.data, (c == '|') = false := fun c hc =>
    beq_false_of_isWS (hws c hc) (show isWS '|' = false by decide)
  have hdef : clean_common (some s) =
      (if s.data.isEmpty then none
       else some (joinWith '|' (clean_common_loop ((splitOnSep (fun c => c == '|') s.data).map String.mk)))) := rfl
  rw [hdef, splitOnSep_no_sep hsep]
  have hie : s.data.isEmpty = false := by
    cases hl : s.data
    · exact absurd hl hne
    · rfl
  rw [hie]
  have hloop : clean_common_loop (List.map String.mk [s.data]) = [] := by
    have hsm : strip_markup (some (String.mk s.data)) = none := strip_markup_ws hws
    simp only [List.map_cons, List.map_nil, clean_common_loop, hsm]
  simp only [Bool.false_eq_true, if_false, hloop]
  rfl

theorem clean_rank_ws {s : String} (hws : ∀ c ∈ s.data, isWS c = true) :
    clean_rank (some s) = none := by
  have hdef : clean_rank (some s) =
      (if ((trimC s.data).map lowerChar).isEmpty then none
       else some (String.mk ((trimC s.data).map lowerChar))) := rfl
  rw [hdef, trimC_all_ws hws]
  rfl

theorem clean_rank_ne_empty (s : Option String) : clean_rank s ≠ some "" := by
  cases s with
  | none => intro h; cases h
  | some s =>
    have hdef : clean_rank (some s) =
        (if ((trimC s.data).map lowerChar).isEmpty then none
         else some (String.mk ((trimC s.data).map lowerChar))) := rfl
    rw [hdef]
    by_cases he : ((trimC s.data).map lowerChar).isEmpty = true
    · rw [if_pos he]
      intro h
      cases h
    · rw [if_neg he]
      intro h
      injection h with h
      rw [mk_eq_empty_iff] at h
      rw [h] at he
      exact he rfl

theorem headNotWS_map_lower (l : List Char) : headNotWS (l.map lowerChar) = headNotWS l := by
  unfold headNotWS
  rw [List.head?_map]
  cases l.head? with
  | none => rfl
  | some c => simp [isWS_lowerChar]

theorem lastNotWS_map_lower (l : List Char) : lastNotWS (l.map lowerChar) = lastNotWS l := by
  unfold lastNotWS
  rw [List.getLast?_map]
  cases l.getLast? with
  | none => rfl
  | some c => simp [isWS_lowerChar]

theorem clean_rank_idem (s : Option String) : clean_rank (clean_rank s) = clean_rank s := by
  cases s with
  | none => rfl
  | some s =>
    have hdef : clean_rank (some s) =
        (if ((trimC s.data).map lowerChar).isEmpty then none
         else some (String.mk ((trimC s.data).map lowerChar))) := rfl
    rw [hdef]
    by_cases he : ((trimC s.data).map lowerChar).isEmpty = true
    · rw [if_pos he]
      rfl
    · rw [if_neg he]
      have hT : trimC ((trimC s.data).map lowerChar) = (trimC s.data).map lowerChar := by
        apply trimC_eq_self
        · rw [headNotWS_map_lower]
          exact headNotWS_trimC _
        · rw [lastNotWS_map_lower]
          exact lastNotWS_trimC _
      have hmap : ((trimC s.data).map lowerChar).map lowerChar = (trimC s.data).map lowerChar := by
        rw [List.map_map]
        exact List.map_congr_left fun c _ => lowerChar_idem c
      have hdef2 : clean_rank (some (String.mk ((trimC s.data).map lowerChar))) =
          (if ((trimC ((trimC s.data).map lowerChar)).map lowerChar).isEmpty then none
           else some (String.mk ((trimC ((trimC s.data).map lowerChar)).map lowerChar))) := rfl
      rw [hdef2, hT, hmap, if_neg he]

theorem trimR_cons_not_ws {c : Char} (l : List Char) (hc : isWS c = false) :
    ∃ t, trimR (c :: l) = c :: t := by
  have hdef : trimR (c :: l) =
      match trimR l with
      | [] => if isWS c = true then [] else [c]
      | d :: r => c :: d :: r := rfl
  rw [hdef]
  cases trimR l with
  | nil =>
    refine ⟨[], ?_⟩
    simp [hc]
  | cons d r => exact ⟨d :: r, rfl⟩

theorem normSpacesL_cons_not_ws {c : Char} (l : List Char) (hc : isWS c = false) :
    ∃ t, normSpacesL (c :: l) = c :: t := by
  obtain ⟨t1, h1⟩ := squeeze_cons_not_ws l hc
  obtain ⟨t2, h2⟩ := trimR_cons_not_ws t1 hc
  refine ⟨t2, ?_⟩
  unfold normSpacesL trimC
  rw [h1, h2]
  unfold trimL
  rw [List.dropWhile_cons]
  simp [hc]

theorem listStarts_quote_false {l : List Char} (h : ∀ c ∈ l, ¬ c = '"') :
    listStarts ['"'] l = false := by
  cases l with
  | nil => rfl
  | cons c cs =>
    have hc := h c (List.mem_cons_self c cs)
    have hne : ('"' == c) = false := by
      cases hb : ('"' == c)
      · rfl
      · rw [beq_iff_eq] at hb
        exact absurd hb.symm hc
    show (('"' == c) && listStarts [] cs) = false
    rw [hne]
    rfl

theorem mem_quoteFix {c : Char} {l : List Char}
    (h : c ∈ l.map fun d => if d == '"' then ' ' else d) : ¬ c = '"' ∧ (c ∈ l ∨ c = ' ') := by
  obtain ⟨d, hd, rfl⟩ := List.mem_map.mp h
  by_cases hq : (d == '"') = true
  · rw [if_pos hq]
    exact ⟨by decide, Or.inr rfl⟩
  · rw [if_neg hq]
    refine ⟨?_, Or.inl hd⟩
    intro he
    exact hq (by rw [he]; rfl)

theorem clean_scientific_eq (s : String) : clean_scientific (some s) =
    (match strip_markup (some s) with
     | none => none
     | some t =>
       some (normalise_spaces
         (if pyStartsWith t "\"" then String.mk (t.data.map fun c => if c == '"' then ' ' else c)
          else t))) := rfl

theorem clean_scientific_of_strip_none {s : String} (h : strip_markup (some s) = none) :
    clean_scientific (some s) = none := by
  rw [clean_scientific_eq, h]

theorem clean_scientific_of_strip_some {s w : String} (h : strip_markup (some s) = some w) :
    clean_scientific (some s) =
      some (normalise_spaces
        (if pyStartsWith w "\"" then String.mk (w.data.map fun c => if c == '"' then ' ' else c)
         else w)) := by
  rw [clean_scientific_eq, h]

theorem noBrackets_strip {s w : String} (h : strip_markup (some s) = some w) :
    ∀ c ∈ w.data, (!(c == '[' || c == ']')) = true := by
  obtain ⟨hw, _⟩ := strip_markup_some h
  intro c hc
  rw [hw] at hc
  exact (List.mem_filter.mp (mem_trimC hc)).2

theorem no_quote_start_of_no_quote {u : String} (h : ∀ c ∈ u.data, ¬ c = '"') :
    pyStartsWith (normalise_spaces u) "\"" = false := by
  show listStarts ['"'] (normalise_spaces u).data = false
  apply listStarts_quote_false
  intro c hc
  rcases mem_normSpacesL (show c ∈ normSpacesL u.data from hc) with hm | rfl
  · exact h c hm
  · decide

theorem isEmpty_false_of_ne_nil {l : List Char} (h : l ≠ []) : ¬(l.isEmpty = true) := by
  cases l with
  | nil => exact absurd rfl h
  | cons c r => intro hc; cases hc

/-- Re-cleaning a cleaned scientific value: the fixed-point core.  `u`
is the quote-repaired markup-stripped value of the first pass. -/
theorem clean_scientific_fix {u : String}
    (hnb : ∀ c ∈ u.data, (!(c == '[' || c == ']')) = true)
    (hq : pyStartsWith (normalise_spaces u) "\"" = false)
    (hne : normSpacesL u.data ≠ []) :
    clean_scientific (some (normalise_spaces u)) = some (normalise_spaces u) := by
  have hdata : (normalise_spaces u).data = normSpacesL u.data := rfl
  have hfil : (normalise_spaces u).data.filter (fun c => !(c == '[' || c == ']')) =
      (normalise_spaces u).data :=
    List.filter_eq_self.mpr fun c hc => by
      rcases mem_normSpacesL (show c ∈ normSpacesL u.data from hdata ▸ hc) with hm | rfl
      · exact hnb c hm
      · decide
  have htr : trimC (normalise_spaces u).data = (normalise_spaces u).data := by
    rw [hdata]
    exact trimC_idem _
  have hie : ¬((normalise_spaces u).data.isEmpty = true) := by
    rw [hdata]
    exact isEmpty_false_of_ne_nil hne
  have hsm : strip_markup (some (normalise_spaces u)) = some (normalise_spaces u) := by
    rw [strip_markup_eq, hfil, htr, if_neg hie]
  rw [clean_scientific_of_strip_some hsm, hq]
  simp only [Bool.false_eq_true, if_false]
  have hfix : normalise_spaces (normalise_spaces u) = normalise_spaces u := by
    show String.mk (normSpacesL (normalise_spaces u).data) = normalise_spaces u
    rw [hdata, normSpacesL_fix]
    rfl
  rw [hfix]

theorem clean_scientific_idem {s : Option String} (h : clean_scientific s ≠ some "") :
    clean_scientific (clean_scientific s) = clean_scientific s := by
  cases s with
  | none => rfl
  | some s =>
    cases hsm : strip_markup (some s) with
    | none =>
      have h0 : clean_scientific (some s) = none := clean_scientific_of_strip_none hsm
      rw [h0]
      rfl
    | some w =>
      have hw := strip_markup_some hsm
      by_cases hq : pyStartsWith w "\"" = true
      · have h0 : clean_scientific (some s) =
            some (normalise_spaces (String.mk (w.data.map fun c => if c == '"' then ' ' else c))) := by
          rw [clean_scientific_of_strip_some hsm, if_pos hq]
        rw [h0]
        have hne : normSpacesL (String.mk (w.data.map fun c => if c == '"' then ' ' else c)).data ≠ [] := by
          intro hcon
          apply h
          rw [h0]
          have he : normalise_spaces (String.mk (w.data.map fun c => if c == '"' then ' ' else c)) = "" := by
            rw [show normalise_spaces (String.mk (w.data.map fun c => if c == '"' then ' ' else c)) =
                String.mk (normSpacesL (String.mk (w.data.map fun c => if c == '"' then ' ' else c)).data) from rfl]
            rw [mk_eq_empty_iff]
            exact hcon
          rw [he]
        apply clean_scientific_fix
        · intro c hc
          obtain ⟨_, hm⟩ := mem_quoteFix (show c ∈ w.data.map fun d => if d == '"' then ' ' else d from hc)
          rcases hm with hm | rfl
          · exact noBrackets_strip hsm c hm
          · decide
        · apply no_quote_start_of_no_quote
          intro c hc
          exact (mem_quoteFix (show c ∈ w.data.map fun d => if d == '"' then ' ' else d from hc)).1
        · exact hne
      · have hqf : pyStartsWith w "\"" = false := by
          cases hb : pyStartsWith w "\""
          · rfl
          · exact absurd hb hq
        have h0 : clean_scientific (some s) = some (normalise_spaces w) := by
          rw [clean_scientific_of_strip_some hsm, hqf]
          simp only [Bool.false_eq_true, if_false]
        rw [h0]
        have hne : normSpacesL w.data ≠ [] := by
          intro hcon
          apply h
          rw [h0]
          have he : normalise_spaces w = "" := by
            rw [show normalise_spaces w = String.mk (normSpacesL w.data) from rfl, mk_eq_empty_iff]
            exact hcon
          rw [he]
        apply clean_scientific_fix
        · exact noBrackets_strip hsm
        · cases hwd : w.data with
          | nil => exact absurd hwd hw.2
          | cons c r =>
            have hcw : isWS c = false := by
              have hh : headNotWS w.data = true := by
                rw [hw.1]
                exact headNotWS_trimC _
              rw [hwd] at hh
              have : (!isWS c) = true := hh
              simpa using this
            have hcq : ¬ c = '"' := by
              have hls : listStarts ['"'] w.data = false := hqf
              rw [hwd] at hls
              have hls2 : (('"' == c) && listStarts [] r) = false := hls
              intro he
              rw [he] at hls2
              simp only [listStarts] at hls2
              have htrue : listStarts ([] : List Char) r = true := rfl
              simp [htrue] at hls2
            show listStarts ['"'] (normalise_spaces w).data = false
            rw [show (normalise_spaces w).data = normSpacesL w.data from rfl, hwd]
            obtain ⟨t, ht⟩ := normSpacesL_cons_not_ws r hcw
            rw [ht]
            show (('"' == c) && listStarts [] t) = false
            have hne2 : ('"' == c) = false := by
              cases hb : ('"' == c)
              · rfl
              · rw [beq_iff_eq] at hb
                exact absurd hb.symm hcq
            rw [hne2]
            rfl
        · exact hne

theorem assigned_of_cs_none {s : String} (h : clean_scientific (some s) = none) :
    clean_scientific_assigned (some s) = none := by
  show (match clean_scientific (some s) with
        | none => none
        | some t => if containsSub "unassigned".data t.data then none else some t) = none
  rw [h]

theorem assigned_of_cs_some {s t : String} (h : clean_scientific (some s) = some t) :
    clean_scientific_assigned (some s) =
      (if containsSub "unassigned".data t.data then none else some t) := by
  show (match clean_scientific (some s) with
        | none => none
        | some t => if containsSub "unassigned".data t.data then none else some t) = _
  rw [h]

theorem clean_scientific_assigned_idem {s : Option String}
    (h : clean_scientific_assigned s ≠ some "") :
    clean_scientific_assigned (clean_scientific_assigned s) = clean_scientific_assigned s := by
  cases s with
  | none => rfl
  | some s =>
    cases hcs : clean_scientific (some s) with
    | none =>
      rw [assigned_of_cs_none hcs]
      rfl
    | some t =>
      by_cases hu : containsSub "unassigned".data t.data = true
      · rw [assigned_of_cs_some hcs, if_pos hu]
        rfl
      · have h0 : clean_scientific_assigned (some s) = some t := by
          rw [assigned_of_cs_some hcs, if_neg hu]
        rw [h0]
        have htne : t ≠ "" := fun he => h (by rw [h0, he])
        have hsne : clean_scientific (some s) ≠ some "" := by
          rw [hcs]
          intro hx
          injection hx with hx
          exact htne hx
        have hfix : clean_scientific (some t) = some t := by
          have hi := clean_scientific_idem hsne
          rw [hcs] at hi
          exact hi
        rw [assigned_of_cs_some hfix, if_neg hu]

/-! ## Lemmas: the name-group parser -/

/-- The genus entry one token offers for initial `i`. -/
def provLookup (t : String) (i : Char) : Option String :=
  match providerOf t with
  | none => none
  | some (c, w) => if c == i then some w else none

theorem gLookup_append (i : Char) : ∀ l1 l2 : GenusMap,
    gLookup i (l1 ++ l2) =
      (match gLookup i l1 with
       | some w => some w
       | none => gLookup i l2) := by
  intro l1 l2
  induction l1 with
  | nil => rfl
  | cons p rest ih =>
    obtain ⟨c, w⟩ := p
    show (if c == i then some w else gLookup i (rest ++ l2)) =
      (match (if c == i then some w else gLookup i rest) with
       | some w => some w
       | none => gLookup i l2)
    by_cases hc : (c == i) = true
    · rw [if_pos hc, if_pos hc]
    · rw [if_neg hc, if_neg hc]
      exact ih

theorem firstProvider_append_one (ts : List String) (t : String) (i : Char) :
    firstProvider (ts ++ [t]) i =
      (match firstProvider ts i with
       | some w => some w
       | none => provLookup t i) := by
  unfold firstProvider
  rw [List.filterMap_append, gLookup_append]
  cases gLookup i (ts.filterMap providerOf) with
  | some w => rfl
  | none =>
    show gLookup i ([t].filterMap providerOf) = provLookup t i
    unfold provLookup
    cases hp : providerOf t with
    | none =>
      rw [List.filterMap_cons, hp]
      rfl
    | some p =>
      obtain ⟨c, w⟩ := p
      rw [List.filterMap_cons, hp]
      rfl

/-- The loop body on one token, expressed over an already-split first
word `fw` and remainder `rest` — the shape the invariant proofs case
on. -/
def expandTokenSpec (value : String) (genus : GenusMap) (v : String)
    (fw : List Char) (rest : Option (List Char)) : PyResult (GenusMap × String) :=
  match fw with
  | [] => .indexError
  | c :: _ =>
    if isNameAbbrev fw then
      match gLookup c genus with
      | none => .valueError ("Can" ++ "\x27" ++ "t find abbreviated form for " ++ v ++ " in " ++ value)
      | some g =>
        .ok (genus, match rest with
          | some r => g ++ " " ++ String.mk r
          | none => g)
    else
      .ok ((match gLookup c genus with
            | some _ => genus
            | none => (c, String.mk fw) :: genus), v)

/-- The provider a token offers, over its split first word. -/
def provSpec (fw : List Char) : Option (Char × String) :=
  match fw with
  | [] => none
  | c :: cs => if isNameAbbrev (c :: cs) then none else some (c, String.mk (c :: cs))

theorem expandToken_eq (value : String) (genus : GenusMap) (t : String)
    (fw : List Char) (rest : Option (List Char))
    (hsp : splitFirstSpace (reduceToken t).data = (fw, rest)) :
    expandToken value genus t = expandTokenSpec value genus (reduceToken t) fw rest := by
  have h1 : (splitFirstSpace (reduceToken t).data).1 = fw := by rw [hsp]
  have h2 : (splitFirstSpace (reduceToken t).data).2 = rest := by rw [hsp]
  show (match (splitFirstSpace (reduceToken t).data).1 with
        | [] => PyResult.indexError
        | c :: _ =>
          if isNameAbbrev (splitFirstSpace (reduceToken t).data).1 then
            match gLookup c genus with
            | none => PyResult.valueError ("Can" ++ "\x27" ++ "t find abbreviated form for " ++ reduceToken t ++ " in " ++ value)
            | some g =>
              PyResult.ok (genus, match (splitFirstSpace (reduceToken t).data).2 with
                | some r => g ++ " " ++ String.mk r
                | none => g)
          else
            PyResult.ok ((match gLookup c genus with
                  | some _ => genus
                  | none => (c, String.mk (splitFirstSpace (reduceToken t).data).1) :: genus),
              reduceToken t)) = _
  rw [h1, h2]
  cases fw with
  | nil => rfl
  | cons c cs => rfl

theorem providerOf_eq {t : String} {fw : List Char} {rest : Option (List Char)}
    (hsp : splitFirstSpace (reduceToken t).data = (fw, rest)) :
    providerOf t = provSpec fw := by
  have h1 : (splitFirstSpace (reduceToken t).data).1 = fw := by rw [hsp]
  unfold providerOf provSpec
  rw [h1]

theorem expandToken_ok_genus {value : String} {genus g1 : GenusMap} {t v : String}
    (h : expandToken value genus t = .ok (g1, v)) (i : Char) :
    gLookup i g1 =
      (match gLookup i genus with
       | some w => some w
       | none => provLookup t i) := by
  cases hsp : splitFirstSpace (reduceToken t).data with
  | mk fw rest =>
    rw [expandToken_eq value genus t fw rest hsp] at h
    have hpl : provLookup t i =
        (match provSpec fw with
         | none => none
         | some (c, w) => if c == i then some w else none) := by
      unfold provLookup
      rw [providerOf_eq hsp]
    cases fw with
    | nil =>
      simp only [expandTokenSpec] at h
      cases h
    | cons c cs =>
      simp only [expandTokenSpec] at h
      simp only [provSpec] at hpl
      by_cases hab : isNameAbbrev (c :: cs) = true
      · rw [if_pos hab] at h
        rw [if_pos hab] at hpl
        cases hg : gLookup c genus with
        | none =>
          rw [hg] at h
          cases h
        | some g =>
          rw [hg] at h
          injection h with h2
          injection h2 with ha hb
          subst ha
          rw [hpl]
          cases hgi : gLookup i genus with
          | none => rfl
          | some w => rfl
      · rw [if_neg hab] at h
        rw [if_neg hab] at hpl
        injection h with h2
        injection h2 with ha hb
        subst ha
        rw [hpl]
        cases hg : gLookup c genus with
        | some g0 =>
          show gLookup i genus = _
          cases hgi : gLookup i genus with
          | some w => rfl
          | none =>
            show (none : Option String) =
              (if c == i then some (String.mk (c :: cs)) else none)
            by_cases hci : (c == i) = true
            · rw [beq_iff_eq] at hci
              subst hci
              rw [hg] at hgi
              cases hgi
            · rw [if_neg hci]
        | none =>
          show (if c == i then some (String.mk (c :: cs)) else gLookup i genus) = _
          by_cases hci : (c == i) = true
          · rw [if_pos hci]
            rw [beq_iff_eq] at hci
            subst hci
            rw [hg]
            show some (String.mk (c :: cs)) =
              (if c == c then some (String.mk (c :: cs)) else none)
            rw [if_pos (beq_self_eq_true c)]
          · rw [if_neg hci]
            cases hgi : gLookup i genus with
            | some w => rfl
            | none =>
              show (none : Option String) =
                (if c == i then some (String.mk (c :: cs)) else none)
              rw [if_neg hci]

theorem expandLoop_eq_cons (value : String) (genus : GenusMap) (acc : List String)
    (t : String) (rest : List String) :
    expandLoop value genus acc (t :: rest) =
      (match expandToken value genus t with
       | .indexError => .indexError
       | .valueError m => .valueError m
       | .ok (g1, v) => expandLoop value g1 (acc ++ [v]) rest) := rfl

theorem expandLoop_append (value : String) :
    ∀ (l1 l2 : List String) (genus : GenusMap) (acc : List String),
    expandLoop value genus acc (l1 ++ l2) =
      (match expandLoop value genus acc l1 with
       | .ok (g1, a1) => expandLoop value g1 a1 l2
       | .valueError m => .valueError m
       | .indexError => .indexError) := by
  intro l1
  induction l1 with
  | nil =>
    intro l2 genus acc
    rfl
  | cons t rest ih =>
    intro l2 genus acc
    rw [List.cons_append, expandLoop_eq_cons, expandLoop_eq_cons]
    cases expandToken value genus t with
    | indexError => rfl
    | valueError m => rfl
    | ok p =>
      obtain ⟨g1, v⟩ := p
      exact ih l2 g1 (acc ++ [v])

theorem expandLoop_ok_inv {value : String} : ∀ (ts ps : List String)
    (genus : GenusMap) (acc : List String) {g1 : GenusMap} {a1 : List String},
    (∀ i, gLookup i genus = firstProvider ps i) →
    expandLoop value genus acc ts = .ok (g1, a1) →
    ∀ i, gLookup i g1 = firstProvider (ps ++ ts) i := by
  intro ts
  induction ts with
  | nil =>
    intro ps genus acc g1 a1 hinv h i
    have h2 : PyResult.ok (α := GenusMap × List String) (genus, acc) = .ok (g1, a1) := h
    injection h2 with h3
    injection h3 with ha hb
    subst ha
    rw [List.append_nil]
    exact hinv i
  | cons t rest ih =>
    intro ps genus acc g1 a1 hinv h i
    rw [expandLoop_eq_cons] at h
    cases hstep : expandToken value genus t with
    | indexError =>
      rw [hstep] at h
      cases h
    | valueError m =>
      rw [hstep] at h
      cases h
    | ok p =>
      obtain ⟨g2, v⟩ := p
      rw [hstep] at h
      have hinv2 : ∀ j, gLookup j g2 = firstProvider (ps ++ [t]) j := by
        intro j
        rw [firstProvider_append_one, ← hinv j]
        exact expandToken_ok_genus hstep j
      have hres := ih (ps ++ [t]) g2 (acc ++ [v]) hinv2 h i
      rw [List.append_cons]
      exact hres

theorem take_succ_getD (d : String) : ∀ (l : List String) (k : Nat), k < l.length →
    l.take (k + 1) = l.take k ++ [l.getD k d] := by
  intro l
  induction l with
  | nil =>
    intro k hk
    exact absurd hk (Nat.not_lt_zero k)
  | cons x rest ih =>
    intro k hk
    cases k with
    | zero => rfl
    | succ k2 =>
      have hk2 : k2 < rest.length := Nat.lt_of_succ_lt_succ hk
      show x :: rest.take (k2 + 1) = x :: (rest.take k2 ++ [rest.getD k2 d])
      rw [ih k2 hk2]

theorem drop_cons_getD (d : String) : ∀ (l : List String) (k : Nat), k < l.length →
    l.drop k = l.getD k d :: l.drop (k + 1) := by
  intro l
  induction l with
  | nil =>
    intro k hk
    exact absurd hk (Nat.not_lt_zero k)
  | cons x rest ih =>
    intro k hk
    cases k with
    | zero => rfl
    | succ k2 =>
      have hk2 : k2 < rest.length := Nat.lt_of_succ_lt_succ hk
      show rest.drop k2 = rest.getD k2 d :: rest.drop (k2 + 1)
      exact ih k2 hk2

theorem expandLoop_reach_error {value : String} {ts : List String} {k : Nat}
    {g : GenusMap} {acc : List String}
    (hpre : expandLoop value [] [] (ts.take k) = .ok (g, acc))
    {e : PyResult (GenusMap × List String)}
    (hstep : expandLoop value g acc (ts.drop k) = e) :
    expandLoop value [] [] ts = e := by
  conv_lhs => rw [← List.take_append_drop k ts]
  rw [expandLoop_append, hpre]
  exact hstep

/-- Reattach the remainder after the first space to a resolved genus
word, as the loop does (`first + " " + parts[1]` when a remainder
exists). -/
def recombine (w : String) (rest : Option (List Char)) : String :=
  match rest with
  | some r => w ++ " " ++ String.mk r
  | none => w

theorem caab_name_expander_eq (s : String) :
    caab_name_expander (some s) =
      (if (trimC s.data).isEmpty then .ok none
       else
         match expandLoop (expanderValue s) [] [] (expanderTokens s) with
         | .ok (_, acc) => .ok (some acc)
         | .valueError m => .valueError m
         | .indexError => .indexError) := rfl

theorem expanderValue_of_empty {s : String} (h : trimC s.data = []) : expanderValue s = "" := by
  simp only [expanderValue, h]
  rfl

theorem expanderTokens_of_empty {s : String} (h : trimC s.data = []) : expanderTokens s = [""] := by
  simp only [expanderTokens, expanderValue_of_empty h]
  rfl

/-! ## Lemmas: predicate and remarks -/

theorem listStarts_single_append {p : Char} {l1 l2 : List Char} (h : l1 ≠ []) :
    listStarts [p] (l1 ++ l2) = listStarts [p] l1 := by
  cases l1 with
  | nil => exact absurd rfl h
  | cons c cs => rfl

theorem pyEndsWith_remark (X orig : String) :
    pyEndsWith (X ++ " Derived from original scientific name group " ++ orig) "." =
      pyEndsWith orig "." := by
  show listStarts ['.'] (X ++ " Derived from original scientific name group " ++ orig).data.reverse =
    listStarts ['.'] orig.data.reverse
  have hd : (X ++ " Derived from original scientific name group " ++ orig).data.reverse =
      orig.data.reverse ++ ((" Derived from original scientific name group ").data.reverse ++ X.data.reverse) := by
    rw [String.data_append, String.data_append, List.reverse_append, List.reverse_append]
  rw [hd]
  cases horig : orig.data with
  | nil =>
    have h1 : listStarts ['.']
        (([] : List Char).reverse ++ ((" Derived from original scientific name group ").data.reverse ++ X.data.reverse)) =
        listStarts ['.'] (" Derived from original scientific name group ").data.reverse := by
      show listStarts ['.'] ((" Derived from original scientific name group ").data.reverse ++ X.data.reverse) = _
      exact listStarts_single_append (by decide)
    rw [h1]
    rfl
  | cons c cs =>
    apply listStarts_single_append
    intro hrev
    have : (c :: cs : List Char) = [] := by
      have h2 := congrArg List.reverse hrev
      rwa [List.reverse_reverse] at h2
    cases this

/-! ## The claims -/

/-- C1 (amended): an abbreviated genus token (one capital letter and a
period) resolves to the EARLIEST full genus with the same initial
stated earlier in the same string, not the most recent one: a full
genus is recorded in the map only when its initial is not yet present
(insert-if-absent, never overwritten), so when the scan reaches an
abbreviated token at position `k` whose initial has earliest provider
`w` among the earlier tokens, the loop appends `w` recombined with the
token's remainder. -/
theorem c1_claim (s : String) (k : Nat) (hk : k < (expanderTokens s).length)
    (g : GenusMap) (acc : List String)
    (hpre : expandLoop (expanderValue s) [] [] ((expanderTokens s).take k) = .ok (g, acc))
    (c : Char) (cs : List Char) (rest : Option (List Char))
    (hsp : splitFirstSpace (reduceToken ((expanderTokens s).getD k "")).data = (c :: cs, rest))
    (habb : isNameAbbrev (c :: cs) = true)
    (w : String) (hw : firstProvider ((expanderTokens s).take k) c = some w) :
    expandLoop (expanderValue s) [] [] ((expanderTokens s).take (k + 1)) =
      .ok (g, acc ++ [recombine w rest]) := by
  rw [take_succ_getD "" _ k hk, expandLoop_append, hpre]
  show expandLoop (expanderValue s) g acc [(expanderTokens s).getD k ""] = _
  rw [expandLoop_eq_cons,
    expandToken_eq (expanderValue s) g ((expanderTokens s).getD k "") (c :: cs) rest hsp]
  simp only [expandTokenSpec]
  rw [if_pos habb]
  have hg : gLookup c g = some w := by
    have hinv0 := expandLoop_ok_inv ((expanderTokens s).take k) [] [] [] (fun i => rfl) hpre
    have hc := hinv0 c
    rw [List.nil_append] at hc
    rw [hc, hw]
  rw [hg]
  cases rest with
  | some r => rfl
  | none => rfl

/-- C1 fails as stated (most-recent / upsert resolution): in
`"Abc x, Axy y, A. z"` the latest full genus with initial `A` before
the abbreviated token is `Axy`, but the parser expands `A. z` to
`Abc z` — the first-stated genus — because the map entry for `A` is
never overwritten. -/
theorem c1_counterexample :
    caab_name_expander (some "Abc x, Axy y, A. z") = .ok (some ["Abc x", "Axy y", "Abc z"]) ∧
    latestProvider ((expanderTokens "Abc x, Axy y, A. z").take 2) 'A' = some "Axy" ∧
    ("Abc z" : String) ≠ "Axy" ++ " " ++ "z" :=
  ⟨by decide, by decide, by decide⟩

/-- Witness for C1: the amended theorem applied to
`"Abc x, Axy y, A. z"` at the abbreviated third token. -/
theorem c1_witness :
    expandLoop (expanderValue "Abc x, Axy y, A. z") [] []
        ((expanderTokens "Abc x, Axy y, A. z").take 3) =
      .ok ([('A', "Abc")], ["Abc x", "Axy y", "Abc z"]) := by
  have h := c1_claim "Abc x, Axy y, A. z" 2 (by decide) [('A', "Abc")] ["Abc x", "Axy y"]
    (by decide) 'A' ['.'] (some ['z']) (by decide) (by decide) "Abc" (by decide)
  exact h

/-- C2 (amended): when the scan reaches an abbreviated genus token
whose initial has no full-genus antecedent strictly earlier in the
string (all earlier tokens processed successfully), the call fails
with the `ValueError` whose message names the offending (reduced)
token and the parsed value; the message contains both as substrings,
and no default genus or partial result is produced. -/
theorem c2_claim (s : String) (k : Nat) (hk : k < (expanderTokens s).length)
    (g : GenusMap) (acc : List String)
    (hpre : expandLoop (expanderValue s) [] [] ((expanderTokens s).take k) = .ok (g, acc))
    (c : Char) (cs : List Char) (rest : Option (List Char))
    (hsp : splitFirstSpace (reduceToken ((expanderTokens s).getD k "")).data = (c :: cs, rest))
    (habb : isNameAbbrev (c :: cs) = true)
    (hno : firstProvider ((expanderTokens s).take k) c = none) :
    caab_name_expander (some s) =
      .valueError ("Can" ++ "\x27" ++ "t find abbreviated form for " ++
        reduceToken ((expanderTokens s).getD k "") ++ " in " ++ expanderValue s) ∧
    (∃ p q, ("Can" ++ "\x27" ++ "t find abbreviated form for " ++
        reduceToken ((expanderTokens s).getD k "") ++ " in " ++ expanderValue s).data =
      p ++ (reduceToken ((expanderTokens s).getD k "")).data ++ q) ∧
    (∃ p, ("Can" ++ "\x27" ++ "t find abbreviated form for " ++
        reduceToken ((expanderTokens s).getD k "") ++ " in " ++ expanderValue s).data =
      p ++ (expanderValue s).data) := by
  have hne : ¬((trimC s.data).isEmpty = true) := by
    intro hie
    have hnil : trimC s.data = [] := by
      cases hl : trimC s.data
      · rfl
      · rw [hl] at hie
        cases hie
    have htok := expanderTokens_of_empty hnil
    rw [htok] at hk
    have hk0 : k = 0 := Nat.lt_one_iff.mp hk
    subst hk0
    rw [htok] at hsp
    have hcontra : (([], none) : List Char × Option (List Char)) = (c :: cs, rest) := hsp
    injection hcontra with h1 _
    cases h1
  have hg : gLookup c g = none := by
    have hinv0 := expandLoop_ok_inv ((expanderTokens s).take k) [] [] [] (fun i => rfl) hpre
    have hc := hinv0 c
    rw [List.nil_append] at hc
    rw [hc, hno]
  have hstep : expandLoop (expanderValue s) g acc ((expanderTokens s).drop k) =
      .valueError ("Can" ++ "\x27" ++ "t find abbreviated form for " ++
        reduceToken ((expanderTokens s).getD k "") ++ " in " ++ expanderValue s) := by
    rw [drop_cons_getD "" _ k hk, expandLoop_eq_cons,
      expandToken_eq (expanderValue s) g ((expanderTokens s).getD k "") (c :: cs) rest hsp]
    simp only [expandTokenSpec]
    rw [if_pos habb, hg]
  have hall := expandLoop_reach_error hpre hstep
  refine ⟨?_, ?_, ?_⟩
  · rw [caab_name_expander_eq, if_neg hne, hall]
  · refine ⟨("Can" ++ "\x27" ++ "t find abbreviated form for ").data,
      (" in " ++ expanderValue s).data, ?_⟩
    simp [String.data_append, List.append_assoc]
  · refine ⟨("Can" ++ "\x27" ++ "t find abbreviated form for " ++
      reduceToken ((expanderTokens s).getD k "") ++ " in ").data, ?_⟩
    simp [String.data_append, List.append_assoc]

/-- C2 fails as stated: `", T. x"` contains an abbreviated genus token
(`T. x`, at index 1) with no full-genus antecedent, yet the call fails
with an `IndexError` from the empty token before it — not with the
documented parse error naming the offending token. -/
theorem c2_counterexample :
    isNameAbbrev (splitFirstSpace (reduceToken ((expanderTokens ", T. x").getD 1 "")).data).1 = true ∧
    firstProvider ((expanderTokens ", T. x").take 1) 'T' = none ∧
    caab_name_expander (some ", T. x") = .indexError ∧
    caab_name_expander (some ", T. x") ≠
      .valueError ("Can" ++ "\x27" ++ "t find abbreviated form for " ++
        reduceToken ((expanderTokens ", T. x").getD 1 "") ++ " in " ++ expanderValue ", T. x") :=
  ⟨by decide, by decide, by decide, by decide⟩

/-- Witness for C2: `"T. obesus"` alone fails with the parse error
naming the token and the source value. -/
theorem c2_witness :
    caab_name_expander (some "T. obesus") =
      .valueError ("Can" ++ "\x27" ++ "t find abbreviated form for T. obesus in T. obesus") := by
  have h := (c2_claim "T. obesus" 0 (by decide) [] [] rfl 'T' ['.'] (some "obesus".data)
    (by decide) (by decide) rfl).1
  rw [h]
  rfl

/-- C3 (amended): `clean_scientific`, `clean_scientific_assigned` and
`clean_rank` map absent, empty and whitespace-only input to absent,
and `clean_rank` never returns an empty string; but `clean_common` on
a non-empty input all of whose phrases are dropped returns the EMPTY
STRING, not absent (`clean_common` of a whitespace-only string is
`""`). -/
theorem c3_claim :
    (clean_scientific none = none ∧ clean_scientific_assigned none = none ∧
     clean_common none = none ∧ clean_rank none = none) ∧
    (clean_scientific (some "") = none ∧ clean_scientific_assigned (some "") = none ∧
     clean_common (some "") = none ∧ clean_rank (some "") = none) ∧
    (∀ s : String, s.data ≠ [] → (∀ c ∈ s.data, isWS c = true) →
      clean_scientific (some s) = none ∧ clean_scientific_assigned (some s) = none ∧
      clean_rank (some s) = none ∧ clean_common (some s) = some "") ∧
    (∀ s : Option String, clean_rank s ≠ some "") := by
  refine ⟨⟨rfl, rfl, rfl, rfl⟩, ⟨rfl, rfl, rfl, rfl⟩, ?_, clean_rank_ne_empty⟩
  intro s hne hws
  have hsm : strip_markup (some s) = none := strip_markup_ws hws
  refine ⟨clean_scientific_of_strip_none hsm, ?_, clean_rank_ws hws, clean_common_ws hne hws⟩
  rw [assigned_of_cs_none (clean_scientific_of_strip_none hsm)]

/-- C3 fails as stated: the whitespace-only (non-absent, non-empty)
input `" "` makes `clean_common` return the empty string, not
absent. -/
theorem c3_counterexample :
    (" " : String).data.all isWS = true ∧ (" " : String) ≠ "" ∧
    clean_common (some " ") = some "" ∧ (some "" : Option String) ≠ none :=
  ⟨by decide, by decide, by decide, by decide⟩

/-- Witness for C3: the amended theorem at the whitespace-only input
`" "`. -/
theorem c3_witness :
    clean_scientific (some " ") = none ∧ clean_scientific_assigned (some " ") = none ∧
    clean_rank (some " ") = none ∧ clean_common (some " ") = some "" :=
  c3_claim.2.2.1 " " (by decide) (by decide)

/-- C4 (amended): `clean_rank` is idempotent on every input, and
`clean_scientific` and `clean_scientific_assigned` are idempotent on
every input whose cleaned result is not the empty string; but
`clean_common` is not idempotent — a leading article can survive one
pass and be stripped by the next. -/
theorem c4_claim :
    (∀ s : Option String, clean_rank (clean_rank s) = clean_rank s) ∧
    (∀ s : Option String, clean_scientific s ≠ some "" →
      clean_scientific (clean_scientific s) = clean_scientific s) ∧
    (∀ s : Option String, clean_scientific_assigned s ≠ some "" →
      clean_scientific_assigned (clean_scientific_assigned s) = clean_scientific_assigned s) :=
  ⟨clean_rank_idem, fun _ h => clean_scientific_idem h,
    fun _ h => clean_scientific_assigned_idem h⟩

/-- C4 fails as stated: `clean_common("a a fish")` is `"a fish"`, and
re-applying `clean_common` strips the remaining article, giving
`"fish"` — cleaning is not a fixed point. -/
theorem c4_counterexample :
    clean_common (some "a a fish") = some "a fish" ∧
    clean_common (clean_common (some "a a fish")) = some "fish" ∧
    (some "fish" : Option String) ≠ some "a fish" :=
  ⟨by decide, by decide, by decide⟩

/-- Witness for C4: the amended theorem's `clean_scientific` clause at
`"Abc def"`. -/
theorem c4_witness :
    clean_scientific (clean_scientific (some "Abc def")) = clean_scientific (some "Abc def") :=
  c4_claim.2.1 (some "Abc def") (by decide)

/-- C5 (amended): when the markup-stripped form begins with a literal
quote character, `clean_scientific` replaces EVERY quote character in
the string with a space (Python `s.replace`), so the result contains
no quote at all; a string not beginning with a quote undergoes no
quote replacement — the result is exactly the whitespace-normalised
stripped form. -/
theorem c5_claim (s t : String) (h : strip_markup (some s) = some t) :
    (pyStartsWith t "\"" = true → ∀ u : String, clean_scientific (some s) = some u →
      u.data.all (fun c => !(c == '"')) = true) ∧
    (pyStartsWith t "\"" = false → clean_scientific (some s) = some (normalise_spaces t)) := by
  constructor
  · intro hq u hu
    rw [clean_scientific_of_strip_some h, if_pos hq] at hu
    injection hu with hu
    subst hu
    apply all_of_mem_imp
    intro c hc
    have hc2 : c ∈ normSpacesL (String.mk (t.data.map fun d => if d == '"' then ' ' else d)).data := hc
    have hnq : ¬ c = '"' := by
      rcases mem_normSpacesL hc2 with hm | rfl
      · exact (mem_quoteFix hm).1
      · decide
    have hb : (c == '"') = false := by
      cases hb2 : (c == '"')
      · rfl
      · rw [beq_iff_eq] at hb2
        exact absurd hb2 hnq
    rw [hb]
    rfl
  · intro hq
    rw [clean_scientific_of_strip_some h, hq]
    simp only [Bool.false_eq_true, if_false]

/-- C5 fails as stated: in `'"Abc"def'` only the leading quote should
be repaired per the claim (giving `'Abc"def'`), but the code replaces
every quote, giving `"Abc def"`. -/
theorem c5_counterexample :
    clean_scientific (some "\"Abc\"def") = some "Abc def" ∧
    ("Abc def" : String) ≠ "Abc\"def" :=
  ⟨by decide, by decide⟩

/-- Witness for C5: the amended theorem at `'"Abc"def'` — the cleaned
result `"Abc def"` contains no quote character. -/
theorem c5_witness :
    ("Abc def" : String).data.all (fun c => !(c == '"')) = true :=
  (c5_claim "\"Abc\"def" "\"Abc\"def" (by decide)).1 (by decide) "Abc def" (by decide)

/-- C6: `clean_common` on `"a Red Fish|[Spotted] Cod|an Eel"` strips
markup and bracket characters from each pipe-separated phrase, drops
the leading indefinite articles, collapses whitespace and rejoins the
surviving phrases with pipe in original order, giving
`"Red Fish|Spotted Cod|Eel"`. -/
theorem c6_claim :
    clean_common (some "a Red Fish|[Spotted] Cod|an Eel") = some "Red Fish|Spotted Cod|Eel" := by
  decide

/-- C7: `is_current_taxon` is true exactly when the non-current flag
is unset, the species code starts with neither `"99"` nor `"8"`, and
at least one of the scientific and display names is present; any
record with species code `"99123"` is rejected regardless of its
other fields, and the predicate is a total function. -/
theorem c7_claim :
    (∀ r : CaabRecord, is_current_taxon r = true ↔
      (r.NON_CURRENT_FLAG = false ∧
       (¬ ∃ rest, r.SPCODE.data = '9' :: '9' :: rest) ∧
       (¬ ∃ rest, r.SPCODE.data = '8' :: rest) ∧
       (r.SCIENTIFIC_NAME ≠ none ∨ r.DISPLAY_NAME ≠ none))) ∧
    (∀ r : CaabRecord, r.SPCODE = "99123" → is_current_taxon r = false) := by
  constructor
  · intro r
    simp only [is_current_taxon, Bool.and_eq_true, Bool.not_eq_true', Bool.or_eq_true,
      Option.isSome_iff_ne_none]
    constructor
    · rintro ⟨⟨⟨hf, h99⟩, h8⟩, hor⟩
      refine ⟨hf, ?_, ?_, hor⟩
      · rintro ⟨rest, hr⟩
        have hp : pyStartsWith r.SPCODE "99" = true := by
          show listStarts "99".data r.SPCODE.data = true
          rw [listStarts_iff]
          exact ⟨rest, by rw [hr]; rfl⟩
        rw [hp] at h99
        cases h99
      · rintro ⟨rest, hr⟩
        have hp : pyStartsWith r.SPCODE "8" = true := by
          show listStarts "8".data r.SPCODE.data = true
          rw [listStarts_iff]
          exact ⟨rest, by rw [hr]; rfl⟩
        rw [hp] at h8
        cases h8
    · rintro ⟨hf, h99, h8, hor⟩
      refine ⟨⟨⟨hf, ?_⟩, ?_⟩, hor⟩
      · cases hp : pyStartsWith r.SPCODE "99"
        · rfl
        · exfalso
          obtain ⟨rest, hr⟩ := (listStarts_iff "99".data r.SPCODE.data).mp hp
          exact h99 ⟨rest, by rw [hr]; rfl⟩
      · cases hp : pyStartsWith r.SPCODE "8"
        · rfl
        · exfalso
          obtain ⟨rest, hr⟩ := (listStarts_iff "8".data r.SPCODE.data).mp hp
          exact h8 ⟨rest, by rw [hr]; rfl⟩
  · intro r hcode
    simp only [is_current_taxon, hcode]
    have h99 : pyStartsWith "99123" "99" = true := by decide
    rw [h99]
    simp

/-- Witness for C7: a record with species code `"99123"` is not
a current taxon whatever the other fields hold. -/
theorem c7_witness : is_current_taxon ⟨"99123", false, some "Sp", none⟩ = false :=
  c7_claim.2 ⟨"99123", false, some "Sp", none⟩ rfl

/-- C8: the remark is exactly `"Standard name from <standard>."`,
then — only when the final name differs from the original name-group
string — `" Derived from original scientific name group <original>"`
with a period appended exactly when the original does not already end
in one, then — only when the introduced flag is the literal `"I"` —
`" Introduced."`; order and punctuation exact. -/
theorem c8_claim (r : RemarkRecord) :
    caab_name_remarks r =
      ("Standard name from " ++ r.standard ++ ".") ++
      (if r.scientificName = r.originalScientificName then ""
       else " Derived from original scientific name group " ++ r.originalScientificName ++
         (if pyEndsWith r.originalScientificName "." then "" else ".")) ++
      (if r.introduced = "I" then " Introduced." else "") := by
  simp only [caab_name_remarks]
  by_cases heq : r.scientificName = r.originalScientificName
  · rw [if_neg (not_not_intro heq), if_pos heq, String.append_empty]
    by_cases hI : r.introduced = "I"
    · rw [if_pos hI, if_pos hI]
    · rw [if_neg hI, if_neg hI, String.append_empty]
  · rw [if_pos heq, if_neg heq, pyEndsWith_remark]
    by_cases hdot : pyEndsWith r.originalScientificName "." = true
    · rw [hdot]
      rw [if_neg (show ¬((!(true : Bool)) = true) by decide),
          if_pos (show (true : Bool) = true from rfl)]
      by_cases hI : r.introduced = "I"
      · rw [if_pos hI, if_pos hI]
        simp only [String.append_assoc, String.append_empty]
      · rw [if_neg hI, if_neg hI]
        simp only [String.append_assoc, String.append_empty]
    · have hdot2 : pyEndsWith r.originalScientificName "." = false := by
        cases hb : pyEndsWith r.originalScientificName "."
        · rfl
        · exact absurd hb hdot
      rw [hdot2]
      rw [if_pos (show (!(false : Bool)) = true by decide),
          if_neg (show ¬((false : Bool) = true) by decide)]
      by_cases hI : r.introduced = "I"
      · rw [if_pos hI, if_pos hI]
        simp only [String.append_assoc, String.append_empty]
      · rw [if_neg hI, if_neg hI]
        simp only [String.append_assoc, String.append_empty]

/-- C9: `caab_name_expander` is deterministic and stateless across
calls: the genus map is the `expandLoop` parameter initialised to `[]`
inside each call, so a sequence of calls is exactly the pointwise
image of the function — a call's result is unaffected by the calls
made before or after it. -/
theorem c9_claim (xs ys : List (Option String)) (s : Option String) :
    runSequence (xs ++ s :: ys) = runSequence xs ++ caab_name_expander s :: runSequence ys := by
  induction xs with
  | nil => rfl
  | cons x rest ih =>
    show caab_name_expander x :: runSequence (rest ++ s :: ys) = _
    rw [ih]
    rfl

/-- C10 (amended): when the stripped input is non-empty and the scan
reaches a token that strips to the empty string (an empty token
between separators or at either end), taking the first character of
the empty first word raises an unguarded `IndexError` — the token is
not skipped and no documented parse error is produced. -/
theorem c10_claim (s : String) (k : Nat) (hk : k < (expanderTokens s).length)
    (hs : trimC s.data ≠ [])
    (g : GenusMap) (acc : List String)
    (hpre : expandLoop (expanderValue s) [] [] ((expanderTokens s).take k) = .ok (g, acc))
    (hempty : trimC ((expanderTokens s).getD k "").data = []) :
    caab_name_expander (some s) = .indexError := by
  have hne : ¬((trimC s.data).isEmpty = true) := isEmpty_false_of_ne_nil hs
  have hred : (reduceToken ((expanderTokens s).getD k "")).data = [] := by
    simp only [reduceToken, hempty]
    rfl
  have hsp : splitFirstSpace (reduceToken ((expanderTokens s).getD k "")).data =
      (([] : List Char), (none : Option (List Char))) := by
    rw [hred]
    rfl
  have hstep : expandLoop (expanderValue s) g acc ((expanderTokens s).drop k) = .indexError := by
    rw [drop_cons_getD "" _ k hk, expandLoop_eq_cons,
      expandToken_eq (expanderValue s) g ((expanderTokens s).getD k "") [] none hsp]
    simp only [expandTokenSpec]
  have hall := expandLoop_reach_error hpre hstep
  rw [caab_name_expander_eq, if_neg hne, hall]

/-- C10 fails as stated: `"B. x, , y"` contains an empty token, but
the call raises the documented parse error for the earlier
unresolvable abbreviation `B. x`, not an `IndexError`. -/
theorem c10_counterexample :
    ((expanderTokens "B. x, , y").map pyStrip).contains "" = true ∧
    caab_name_expander (some "B. x, , y") =
      .valueError ("Can" ++ "\x27" ++ "t find abbreviated form for B. x in B. x, , y") ∧
    caab_name_expander (some "B. x, , y") ≠ .indexError :=
  ⟨by decide, by decide, by decide⟩

/-- Witness for C10: `"A, & B"` reaches its empty second token and the
call ends in `IndexError`. -/
theorem c10_witness : caab_name_expander (some "A, & B") = .indexError :=
  c10_claim "A, & B" 1 (by decide) (by decide) [('A', "A")] ["A"] (by decide) (by decide)


end Caab
